import Mathlib

/-!
Verification development for the NMF benchmark objective
(`objective.py`, class `Objective`).

The numeric code is embedded over the reals: numpy arrays become
`Matrix (Fin a) (Fin b) ℝ`, `np.linalg.norm` becomes `Real.sqrt` of a sum
of squares, and `scipy.special.kl_div` is embedded with values in `EReal`
(its out-of-domain branch returns `inf`).  Division by zero follows Lean's
`x / 0 = 0` convention, standing in for IEEE NaN propagation; the reference
code performs no zero-norm guard, and no theorem below depends on the value
produced by a zero-norm division except where explicitly noted.

`Objective.compute` mutates nothing: the embedding threads the objective
state (`self.X`, `self.rank`, `self.true_factors`) explicitly and returns
it alongside the output dictionary, so that the frame property is a
statement about the translation of the method body.  The body can fail at
runtime only at the fancy-indexing step `W[:, perms]` (when a greedy index
is out of column range, numpy raises); this partiality is modelled with an
`Option` result.
-/

open Matrix

namespace NMFBench

/-- Dense real matrix of shape a×b, the embedding of a 2-D numpy array. -/
abbrev Mat (a b : ℕ) : Type := Matrix (Fin a) (Fin b) ℝ

noncomputable section

open scoped Classical

/-- Embedding of `np.linalg.norm (M, axis=0) [j]`: the Euclidean norm of column `j` of `M`. -/
def colNorm {a b : ℕ} (M : Mat a b) (j : Fin b) : ℝ :=
  Real.sqrt (∑ i, (M i j) ^ 2)

/-- Embedding of `M / np.linalg.norm (M, axis=0)`: divide every column by its norm
(broadcast along rows). -/
def normalizeCols {a b : ℕ} (M : Mat a b) : Mat a b :=
  fun i j => M i j / colNorm M j

/-- Embedding of `np.linalg.norm (M)` for a 2-D array: the Frobenius norm. -/
def frobNorm {a b : ℕ} (M : Mat a b) : ℝ :=
  Real.sqrt (∑ i, ∑ j, (M i j) ^ 2)

/-- Embedding of `scipy.special.kl_div (x, y)` elementwise:
`x * log (x / y) - x + y` when `x > 0, y > 0`; `y` when `x = 0, y ≥ 0`;
`inf` otherwise. -/
def klDivElem (x y : ℝ) : EReal :=
  if 0 < x ∧ 0 < y then ((x * Real.log (x / y) - x + y : ℝ) : EReal)
  else if x = 0 ∧ 0 ≤ y then ((y : ℝ) : EReal)
  else ⊤

/-- State of the forward-scan `np.argmax` loop after examining indices
`0, …, t`: the index of the first occurrence of the running maximum.
numpy scans left to right and replaces the stored index only on a strictly
greater value. -/
def bestIdx (g : ℕ → ℝ) : ℕ → ℕ
  | 0 => 0
  | t + 1 => if g (bestIdx g t) < g (t + 1) then t + 1 else bestIdx g t

/-- The scan index is bounded by the number of examined entries. -/
lemma bestIdx_le (g : ℕ → ℝ) : ∀ t, bestIdx g t ≤ t
  | 0 => Nat.le_refl _
  | t + 1 => by
      rw [bestIdx]
      split
      · exact Nat.le_refl _
      · exact Nat.le_succ_of_le (bestIdx_le g t)

/-- Embedding of `np.argmax` on a length-`k` vector: index of the first occurrence of the
maximum value. -/
def npArgmax {k : ℕ} [NeZero k] (f : Fin k → ℝ) : Fin k :=
  ⟨bestIdx (fun j => if h : j < k then f ⟨j, h⟩ else 0) (k - 1),
    lt_of_le_of_lt (bestIdx_le _ (k - 1))
      (Nat.pred_lt (Nat.pos_iff_ne_zero.mp (Nat.pos_of_ne_zero (NeZero.ne k))))⟩

/-- Every already-examined entry is at most the entry at the scan index. -/
lemma bestIdx_is_max (g : ℕ → ℝ) : ∀ t, ∀ j ≤ t, g j ≤ g (bestIdx g t)
  | 0 => by intro j hj; cases Nat.le_zero.mp hj; exact le_of_eq rfl
  | t + 1 => by
      intro j hj
      rw [bestIdx]
      rcases Nat.le_succ_iff_eq_or_le.mp hj with hj' | hj'
      · subst hj'
        split
        · exact le_of_eq rfl
        · next hlt => exact le_of_not_lt hlt
      · split
        · next hlt => exact le_trans (bestIdx_is_max g t j hj') (le_of_lt hlt)
        · exact bestIdx_is_max g t j hj'

/-- Entries strictly before the scan index are strictly below its value:
numpy's argmax keeps the first occurrence of the maximum. -/
lemma bestIdx_is_first (g : ℕ → ℝ) : ∀ t, ∀ j < bestIdx g t, g j < g (bestIdx g t)
  | 0 => by intro j hj; simp [bestIdx] at hj
  | t + 1 => by
      intro j hj
      rw [bestIdx] at hj ⊢
      split
      · next hlt =>
          rw [if_pos hlt] at hj
          exact lt_of_le_of_lt (bestIdx_is_max g t j (Nat.lt_succ_iff.mp hj)) hlt
      · next hlt =>
          rw [if_neg hlt] at hj
          exact bestIdx_is_first g t j hj

/-- The index `np.argmax` picks attains the row maximum. -/
lemma npArgmax_is_max {k : ℕ} [NeZero k] (f : Fin k → ℝ) (j : Fin k) :
    f j ≤ f (npArgmax f) := by
  have hk : 0 < k := Nat.pos_of_ne_zero (NeZero.ne k)
  have hj : (j : ℕ) ≤ k - 1 := Nat.le_pred_of_lt j.2
  have h := bestIdx_is_max (fun i => if h : i < k then f ⟨i, h⟩ else 0) (k - 1) j hj
  have hb : bestIdx (fun i => if h : i < k then f ⟨i, h⟩ else 0) (k - 1) < k :=
    lt_of_le_of_lt (bestIdx_le _ (k - 1)) (Nat.pred_lt (Nat.pos_iff_ne_zero.mp hk))
  simpa [npArgmax, j.2, hb] using h

/-- Moreover `np.argmax` returns the first occurrence of the maximum: every earlier
index holds a strictly smaller value. -/
lemma npArgmax_is_first {k : ℕ} [NeZero k] (f : Fin k → ℝ) (j : Fin k)
    (hj : j < npArgmax f) : f j < f (npArgmax f) := by
  have hk : 0 < k := Nat.pos_of_ne_zero (NeZero.ne k)
  have hb : bestIdx (fun i => if h : i < k then f ⟨i, h⟩ else 0) (k - 1) < k :=
    lt_of_le_of_lt (bestIdx_le _ (k - 1)) (Nat.pred_lt (Nat.pos_iff_ne_zero.mp hk))
  have h := bestIdx_is_first (fun i => if h : i < k then f ⟨i, h⟩ else 0) (k - 1) j
    (by simpa [npArgmax] using hj)
  simpa [npArgmax, j.2, hb] using h

/-- Closed form of `np.argmax` on two entries. -/
lemma npArgmax_two (f : Fin 2 → ℝ) : npArgmax f = if f 0 < f 1 then 1 else 0 := by
  apply Fin.ext
  rw [npArgmax]
  simp only []
  rw [show (2 : ℕ) - 1 = 1 from rfl, bestIdx, bestIdx]
  norm_num [apply_ite Fin.val]

/-- Closed form of `np.argmax` on three entries. -/
lemma npArgmax_three (f : Fin 3 → ℝ) :
    npArgmax f =
      if f (if f 0 < f 1 then 1 else 0) < f 2 then 2
      else if f 0 < f 1 then 1 else 0 := by
  apply Fin.ext
  rw [npArgmax]
  simp only []
  rw [show (3 : ℕ) - 1 = 2 from rfl, bestIdx, bestIdx, bestIdx]
  by_cases h01 : f 0 < f 1 <;>
    simp [h01, apply_ite Fin.val, apply_ite f]

/-- Embedding of `M[:, σ]`: numpy fancy indexing of columns by the index vector `σ`
(already checked to be in range). -/
def reindexCols {a b c : ℕ} (M : Mat a b) (σ : Fin c → Fin b) : Mat a c :=
  fun i j => M i (σ j)

/-- Embedding of `np.prod (np.diag A * np.diag B)` for `A B : Mat r r'`: `np.diag` of a
rectangular matrix takes the main diagonal of length `min r r'`. -/
def diagProd {r r' : ℕ} (A B : Mat r r') : ℝ :=
  ∏ i : Fin (min r r'),
    A ⟨i, lt_of_lt_of_le i.2 (Nat.min_le_left r r')⟩
        ⟨i, lt_of_lt_of_le i.2 (Nat.min_le_right r r')⟩ *
    B ⟨i, lt_of_lt_of_le i.2 (Nat.min_le_left r r')⟩
        ⟨i, lt_of_lt_of_le i.2 (Nat.min_le_right r r')⟩

/-- The similarity matrix `(W.T @ W_true) * (Ht.T @ Ht_true)` built from the
column-normalized factors, exactly as in the `native version` block of
`Objective.compute`.  Row index `e` ranges over estimate components, column
index `t` over ground-truth components. -/
def codeSim {n m r r' : ℕ} (W : Mat n r) (H : Mat r m)
    (W_true : Mat n r') (H_true : Mat r' m) : Mat r r' :=
  fun e t =>
    ((normalizeCols W)ᵀ * normalizeCols W_true) e t *
    ((normalizeCols Hᵀ)ᵀ * normalizeCols H_trueᵀ) e t

/-- Embedding of `perms = np.argmax ((W.T@W_true)*(Ht.T@Ht_true), axis=1)`: for each
estimate component `e`, the first index of the maximum of row `e` of the
similarity matrix. -/
def codePerms {n m r r' : ℕ} [NeZero r'] (W : Mat n r) (H : Mat r m)
    (W_true : Mat n r') (H_true : Mat r' m) : Fin r → Fin r' :=
  fun e => npArgmax (codeSim W H W_true H_true e)

/-- The factor-match-score block of `Objective.compute` (the `native
version`): normalize columns of `W`, `Ht`, `W_true`, `Ht_true`, take the
row-wise argmax `perms` of the similarity matrix, reindex the estimate's
columns as `W[:, perms]` and `Ht[:, perms]`, and return
`np.prod (np.diag (W.T@W_true) * np.diag (Ht.T@Ht_true))`.
`W[:, perms]` raises an `IndexError` (modelled by `none`) when some entry of
`perms` is not below the estimate's column count `r`. -/
def fmsValue {n m r r' : ℕ} [NeZero r'] (W : Mat n r) (H : Mat r m)
    (W_true : Mat n r') (H_true : Mat r' m) : Option ℝ :=
  if h : ∀ e : Fin r, ((codePerms W H W_true H_true e : Fin r') : ℕ) < r then
    some (diagProd
      ((reindexCols (normalizeCols W)
          (fun e => ⟨codePerms W H W_true H_true e, h e⟩))ᵀ * normalizeCols W_true)
      ((reindexCols (normalizeCols Hᵀ)
          (fun e => ⟨codePerms W H W_true H_true e, h e⟩))ᵀ * normalizeCols H_trueᵀ))
  else none

/-- The attributes of the `Objective` instance read by `compute`, as stored
by `set_data (X, rank, true_factors)`. -/
structure ObjectiveState (n m r' : ℕ) where
  X : Mat n m
  rank : ℕ
  true_factors : Option (Mat n r' × Mat r' m)

/-- The dictionary returned by `Objective.compute`: it always carries the
keys `frobenius` and `kl`, and carries `factor_match_score` exactly when
the ground-truth branch ran. -/
structure ComputeOutput where
  frobenius : ℝ
  kl : EReal
  factor_match_score : Option ℝ

/-- Embedding of `Objective.compute (self, factors)` with `factors = (W, H)`.

Returns the output dictionary (`none` when the call raises, which can only
happen at the `W[:, perms]` indexing step) together with the objective
state after the call.  The body:

* `WH = np.dot (W, H)`;
* `frobenius_loss = 1/2 * np.linalg.norm (self.X - WH) ** 2`;
* `kl_loss = np.sum (kl_div (self.X, WH))`;
* if `self.true_factors` is truthy, additionally the factor match score of
  `fmsValue`.

The method assigns only local names, so the state component of the result
is the input state. -/
def compute {n m r r' : ℕ} [NeZero r'] (s : ObjectiveState n m r')
    (W : Mat n r) (H : Mat r m) :
    Option ComputeOutput × ObjectiveState n m r' :=
  let WH := W * H
  let frobenius_loss : ℝ := 1 / 2 * frobNorm (s.X - WH) ^ 2
  let kl_loss : EReal := ∑ i, ∑ j, klDivElem (s.X i j) (WH i j)
  match s.true_factors with
  | none =>
      (some { frobenius := frobenius_loss, kl := kl_loss, factor_match_score := none }, s)
  | some (W_true, H_true) =>
      match fmsValue W H W_true H_true with
      | none => (none, s)
      | some v =>
          (some { frobenius := frobenius_loss, kl := kl_loss,
                  factor_match_score := some v }, s)

/-- The least index attaining the maximum of `f`.  This is the assignment
policy as the specification words it: `argmax` with ties broken by lowest
index. -/
def specLeastArgmax {k : ℕ} [NeZero k] (f : Fin k → ℝ) : Fin k :=
  (Finset.univ.filter fun j => ∀ i, f i ≤ f j).min'
    ⟨npArgmax f, Finset.mem_filter.mpr ⟨Finset.mem_univ _, npArgmax_is_max f⟩⟩

/-- Characterization of `specLeastArgmax` used to evaluate it on concrete
rows. -/
lemma specLeastArgmax_eq {k : ℕ} [NeZero k] (f : Fin k → ℝ) (x : Fin k)
    (hmax : ∀ i, f i ≤ f x) (hleast : ∀ y, (∀ i, f i ≤ f y) → x ≤ y) :
    specLeastArgmax f = x := by
  refine le_antisymm ?_ ?_
  · exact Finset.min'_le _ _ (Finset.mem_filter.mpr ⟨Finset.mem_univ _, hmax⟩)
  · exact Finset.le_min' _ _ _ fun y hy => hleast y (Finset.mem_filter.mp hy).2

/-- Modelled from the spec: the similarity matrix as the specification
writes it, `S[i, j] = (w_j · w_true_i) * (h_j · h_true_i)` with truth
component `i` as the row index and estimate component `j` as the column
index, over the column-normalized factors. -/
def specSim {n m r r' : ℕ} (W : Mat n r) (H : Mat r m)
    (W_true : Mat n r') (H_true : Mat r' m) : Mat r' r :=
  fun i j =>
    (∑ a, normalizeCols W a j * normalizeCols W_true a i) *
    (∑ b, normalizeCols Hᵀ b j * normalizeCols H_trueᵀ b i)

/-- Modelled from the spec: the reference greedy policy of the claim, `π(i)
= argmax_j S[i, j]` taken independently per truth row `i`, ties broken by
lowest index, duplicates not deduplicated. -/
def specPerm {n m r r' : ℕ} [NeZero r] (W : Mat n r) (H : Mat r m)
    (W_true : Mat n r') (H_true : Mat r' m) : Fin r' → Fin r :=
  fun i => specLeastArgmax (fun j => specSim W H W_true H_true i j)

/-- Modelled from the spec: the score obtained by reordering the estimate's
components with the truth-indexed greedy map `specPerm` and multiplying the
diagonal of the permuted similarity, `∏ i, S[i, π(i)]`. -/
def specAlignedScore {n m r r' : ℕ} [NeZero r] (W : Mat n r) (H : Mat r m)
    (W_true : Mat n r') (H_true : Mat r' m) : ℝ :=
  ∏ i : Fin r', specSim W H W_true H_true i (specPerm W H W_true H_true i)

/-- Per-component rescaling of a W-type factor: column `j` is multiplied by
`c j`. -/
def scaleColsBy {a b : ℕ} (c : Fin b → ℝ) (M : Mat a b) : Mat a b :=
  fun i j => c j * M i j

/-- The matching inverse rescaling of an H-type factor: row `j` is
multiplied by `1 / c j`. -/
def scaleRowsByInv {a b : ℕ} (c : Fin a → ℝ) (M : Mat a b) : Mat a b :=
  fun j k => M j k / c j

/-- Ground-truth W factor of the spec's concrete swap scenario
(r = 2, n = 3). -/
def W_true_swap : Mat 3 2 := !![1, 0; 0, 1; 1, 1]

/-- Ground-truth H factor of the swap scenario (r = 2, m = 3). -/
def H_true_swap : Mat 2 3 := !![1, 0, 1; 0, 1, 1]

/-- Estimate W of the swap scenario: the truth's columns swapped. -/
def W_swap : Mat 3 2 := !![0, 1; 1, 0; 1, 1]

/-- Estimate H of the swap scenario: the truth's rows swapped. -/
def H_swap : Mat 2 3 := !![0, 1, 1; 1, 0, 1]

/-- Estimate W factor with unit columns `(3/5, 4/5)` and `(5/13, 12/13)`,
used to separate the code's estimate-row greedy argmax from the spec's
truth-row policy. -/
def W_est_cex : Mat 2 2 := !![3 / 5, 5 / 13; 4 / 5, 12 / 13]

/-- Estimate H factor whose rows all equal `(1)`, so the H side of the
similarity is identically 1. -/
def H_est_cex : Mat 2 1 := !![1; 1]

/-- Ground-truth W factor: the 2×2 identity. -/
def W_true_cex : Mat 2 2 := !![1, 0; 0, 1]

/-- Ground-truth H factor with rows `(1)`. -/
def H_true_cex : Mat 2 1 := !![1; 1]

/-- Rank-2 estimate W (first two columns of the 3×3 identity), fed against
a rank-3 truth. -/
def W_est_rank2 : Mat 3 2 := !![1, 0; 0, 1; 0, 0]

/-- Rank-2 estimate H (first two rows of the 3×3 identity). -/
def H_est_rank2 : Mat 2 3 := !![1, 0, 0; 0, 1, 0]

/-- Rank-3 ground-truth W: the 3×3 identity. -/
def W_true_rank3 : Mat 3 3 := !![1, 0, 0; 0, 1, 0; 0, 0, 1]

/-- Rank-3 ground-truth H: the 3×3 identity. -/
def H_true_rank3 : Mat 3 3 := !![1, 0, 0; 0, 1, 0; 0, 0, 1]

/-- A degenerate estimate W whose single column is identically zero. -/
def W_deg : Mat 1 1 := !![0]

/-- A 1×1 all-ones factor. -/
def one11 : Mat 1 1 := !![1]

/-- When the estimate and the truth share the rank `r`, every greedy index
is in range, so the factor-match-score block cannot raise and returns the
product `∏ i, S_code[perms i, i]` of the permuted diagonal. -/
lemma fmsValue_self_rank {n m r : ℕ} [NeZero r] (W : Mat n r) (H : Mat r m)
    (W_true : Mat n r) (H_true : Mat r m) :
    fmsValue W H W_true H_true =
      some (∏ i : Fin r,
        codeSim W H W_true H_true (codePerms W H W_true H_true i) i) := by
  rw [fmsValue, dif_pos (fun e => (codePerms W H W_true H_true e).2)]
  congr 1
  rw [diagProd]
  exact Fintype.prod_equiv (finCongr (Nat.min_self r)) _ _ (fun i => rfl)

/-- Evaluating `compute` in the ground-truth branch at shared rank: the output
dictionary carries the two losses and the factor match score. -/
lemma compute_fst_of_true_factors {n m r : ℕ} [NeZero r]
    (s : ObjectiveState n m r) (W : Mat n r) (H : Mat r m)
    (W_true : Mat n r) (H_true : Mat r m)
    (hs : s.true_factors = some (W_true, H_true)) :
    (compute s W H).1 = some
      { frobenius := 1 / 2 * frobNorm (s.X - W * H) ^ 2,
        kl := ∑ i, ∑ j, klDivElem (s.X i j) ((W * H) i j),
        factor_match_score := some (∏ i : Fin r,
          codeSim W H W_true H_true (codePerms W H W_true H_true i) i) } := by
  simp only [compute, hs, fmsValue_self_rank]

/-- Evaluating `compute` without ground truth: the output dictionary carries exactly
the two losses. -/
lemma compute_fst_of_no_true_factors {n m r r' : ℕ} [NeZero r']
    (s : ObjectiveState n m r') (W : Mat n r) (H : Mat r m)
    (hs : s.true_factors = none) :
    (compute s W H).1 = some
      { frobenius := 1 / 2 * frobNorm (s.X - W * H) ^ 2,
        kl := ∑ i, ∑ j, klDivElem (s.X i j) ((W * H) i j),
        factor_match_score := none } := by
  simp only [compute, hs]

/-- Entry of the Gram matrix of two column-normalized matrices: the raw
Gram entry divided by the two column norms. -/
lemma normalized_gram_apply {n b b' : ℕ} (M : Mat n b) (N : Mat n b')
    (e : Fin b) (t : Fin b') :
    ((normalizeCols M)ᵀ * normalizeCols N) e t =
      (∑ a, M a e * N a t) / (colNorm M e * colNorm N t) := by
  simp only [Matrix.mul_apply, Matrix.transpose_apply, normalizeCols,
    div_mul_div_comm, ← Finset.sum_div]

/-- C8: the `frobenius` entry of any dictionary returned by `compute` is
half the squared Euclidean (Frobenius) norm of the residual `X - W·H`. -/
theorem frobenius_half_squared_residual {n m r r' : ℕ} [NeZero r']
    (s : ObjectiveState n m r') (W : Mat n r) (H : Mat r m)
    (out : ComputeOutput) (hout : (compute s W H).1 = some out) :
    out.frobenius = 1 / 2 * ∑ i, ∑ j, (s.X i j - (W * H) i j) ^ 2 := by
  have hsq : frobNorm (s.X - W * H) ^ 2 = ∑ i, ∑ j, (s.X i j - (W * H) i j) ^ 2 := by
    rw [frobNorm, Real.sq_sqrt (by positivity)]
    simp [Matrix.sub_apply]
  rw [compute] at hout
  rcases hs : s.true_factors with _ | ⟨W_true, H_true⟩ <;> rw [hs] at hout
  · simp only [Option.some.injEq] at hout
    rw [← hout, ← hsq]
  · rcases hf : fmsValue W H W_true H_true with _ | v
    · simp [hf] at hout
    · simp only [hf, Option.some.injEq] at hout
      rw [← hout, ← hsq]

set_option maxHeartbeats 1000000 in
/-- C8 witness: the theorem applied at a concrete 1×1 call. -/
theorem frobenius_half_squared_residual_witness :
    (compute (⟨!![(0 : ℝ)], 1, none⟩ : ObjectiveState 1 1 1)
      !![(0 : ℝ)] !![(0 : ℝ)]).1 = some ⟨0, 0, none⟩ ∧
    (⟨0, 0, none⟩ : ComputeOutput).frobenius =
      1 / 2 * ∑ i, ∑ j,
        ((⟨!![(0 : ℝ)], 1, none⟩ : ObjectiveState 1 1 1).X i j -
          (!![(0 : ℝ)] * !![(0 : ℝ)]) i j) ^ 2 := by
  have hfr : frobNorm ((!![(0 : ℝ)] : Mat 1 1) - !![(0 : ℝ)] * !![(0 : ℝ)]) = 0 := by
    norm_num [frobNorm, Fin.sum_univ_one, Matrix.sub_apply, Matrix.mul_apply]
  have hkl : ∑ i : Fin 1, ∑ j : Fin 1,
      klDivElem ((!![(0 : ℝ)] : Mat 1 1) i j) ((!![(0 : ℝ)] * !![(0 : ℝ)]) i j) = 0 := by
    norm_num [Fin.sum_univ_one, Matrix.mul_apply, klDivElem]
  have h : (compute (⟨!![(0 : ℝ)], 1, none⟩ : ObjectiveState 1 1 1)
      !![(0 : ℝ)] !![(0 : ℝ)]).1 = some ⟨0, 0, none⟩ := by
    rw [compute_fst_of_no_true_factors _ _ _ rfl]
    simp only [Option.some.injEq, ComputeOutput.mk.injEq]
    refine ⟨by rw [hfr]; ring, hkl, trivial⟩
  exact ⟨h, frobenius_half_squared_residual _ _ _ _ h⟩

/-- C9: `compute` does not mutate the objective state: the translation of
the method body returns `self.X`, `self.rank` and `self.true_factors`
unchanged (the source assigns only method-local names). -/
theorem compute_state_frame {n m r r' : ℕ} [NeZero r']
    (s : ObjectiveState n m r') (W : Mat n r) (H : Mat r m) :
    (compute s W H).2 = s := by
  rw [compute]
  rcases hs : s.true_factors with _ | ⟨W_true, H_true⟩
  · rfl
  · rcases hf : fmsValue W H W_true H_true with _ | v <;> simp only [hf]

/-- C9 witness: the theorem applied at a concrete 1×1 call. -/
theorem compute_state_frame_witness :
    (compute ⟨!![(0 : ℝ)], 1, (none : Option (Mat 1 1 × Mat 1 1))⟩
      !![(0 : ℝ)] !![(0 : ℝ)]).2 = ⟨!![(0 : ℝ)], 1, none⟩ :=
  compute_state_frame _ _ _

/-- C10: the `factor_match_score` key is present in the returned dictionary
exactly when ground-truth factors are set: with `true_factors = None` the
dictionary holds only the two losses, and with truthy `true_factors` the
branch always attaches a score. -/
theorem fms_key_presence {n m r r' : ℕ} [NeZero r'] (X : Mat n m) (rk : ℕ)
    (W : Mat n r) (H : Mat r m) :
    ((compute (⟨X, rk, none⟩ : ObjectiveState n m r') W H).1.map
        ComputeOutput.factor_match_score) = some none ∧
    ∀ p : Mat n r' × Mat r' m,
      ((compute ⟨X, rk, some p⟩ W H).1.map
        ComputeOutput.factor_match_score) ≠ some none := by
  constructor
  · rw [compute_fst_of_no_true_factors _ _ _ rfl]
    rfl
  · rintro ⟨W_true, H_true⟩ h
    rw [compute] at h
    rcases hf : fmsValue W H W_true H_true with _ | v <;> simp [hf] at h

/-- C10 witness: the theorem applied at a concrete 1×1 call. -/
theorem fms_key_presence_witness :
    ((compute (⟨!![(0 : ℝ)], 1, none⟩ : ObjectiveState 1 1 1)
        !![(0 : ℝ)] !![(0 : ℝ)]).1.map ComputeOutput.factor_match_score) = some none ∧
    ∀ p : Mat 1 1 × Mat 1 1,
      ((compute ⟨!![(0 : ℝ)], 1, some p⟩ !![(0 : ℝ)] !![(0 : ℝ)]).1.map
        ComputeOutput.factor_match_score) ≠ some none :=
  fms_key_presence _ _ _ _

/-- Rescaling a column by a positive scalar does not change the
column-normalized matrix. -/
lemma normalizeCols_scaleColsBy {a b : ℕ} (c : Fin b → ℝ) (hc : ∀ j, 0 < c j)
    (M : Mat a b) : normalizeCols (scaleColsBy c M) = normalizeCols M := by
  have hnorm : ∀ j, colNorm (scaleColsBy c M) j = c j * colNorm M j := by
    intro j
    rw [colNorm, colNorm]
    have : ∀ i : Fin a, (scaleColsBy c M i j) ^ 2 = c j ^ 2 * (M i j) ^ 2 := by
      intro i; rw [scaleColsBy]; ring
    rw [Finset.sum_congr rfl fun i _ => this i, ← Finset.mul_sum,
      Real.sqrt_mul (sq_nonneg _), Real.sqrt_sq (hc j).le]
  funext i j
  rw [normalizeCols, normalizeCols, hnorm, scaleColsBy,
    mul_div_mul_left _ _ (hc j).ne']

/-- The transpose of an inversely row-rescaled matrix is the transpose with
inversely rescaled columns. -/
lemma transpose_scaleRowsByInv {a b : ℕ} (c : Fin a → ℝ) (M : Mat a b) :
    (scaleRowsByInv c M)ᵀ = scaleColsBy (fun j => (c j)⁻¹) Mᵀ := by
  funext i j
  rw [Matrix.transpose_apply, scaleRowsByInv, scaleColsBy, Matrix.transpose_apply,
    div_eq_inv_mul]

/-- The reconstruction `W·H` is unchanged by a consistent per-component
rescaling of the factors. -/
lemma mul_scale_cancel {n m r : ℕ} (c : Fin r → ℝ) (hc : ∀ j, 0 < c j)
    (W : Mat n r) (H : Mat r m) :
    scaleColsBy c W * scaleRowsByInv c H = W * H := by
  funext i k
  rw [Matrix.mul_apply, Matrix.mul_apply]
  refine Finset.sum_congr rfl fun j _ => ?_
  rw [scaleColsBy, scaleRowsByInv]
  have hcj := (hc j).ne'
  field_simp
  ring

/-- The similarity matrix only depends on the four column-normalized
factors. -/
lemma codeSim_congr {n m r r' : ℕ} {W W₂ : Mat n r} {H H₂ : Mat r m}
    {W_true W_true₂ : Mat n r'} {H_true H_true₂ : Mat r' m}
    (h1 : normalizeCols W = normalizeCols W₂)
    (h2 : normalizeCols Hᵀ = normalizeCols H₂ᵀ)
    (h3 : normalizeCols W_true = normalizeCols W_true₂)
    (h4 : normalizeCols H_trueᵀ = normalizeCols H_true₂ᵀ) :
    codeSim W H W_true H_true = codeSim W₂ H₂ W_true₂ H_true₂ := by
  unfold codeSim
  rw [h1, h2, h3, h4]

/-- The factor-match-score block only depends on the four column-normalized
factors. -/
lemma fmsValue_congr {n m r r' : ℕ} [NeZero r'] {W W₂ : Mat n r} {H H₂ : Mat r m}
    {W_true W_true₂ : Mat n r'} {H_true H_true₂ : Mat r' m}
    (h1 : normalizeCols W = normalizeCols W₂)
    (h2 : normalizeCols Hᵀ = normalizeCols H₂ᵀ)
    (h3 : normalizeCols W_true = normalizeCols W_true₂)
    (h4 : normalizeCols H_trueᵀ = normalizeCols H_true₂ᵀ) :
    fmsValue W H W_true H_true = fmsValue W₂ H₂ W_true₂ H_true₂ := by
  have hsim := codeSim_congr h1 h2 h3 h4
  have hperm : codePerms W H W_true H_true = codePerms W₂ H₂ W_true₂ H_true₂ := by
    unfold codePerms
    rw [hsim]
  unfold fmsValue
  rw [hperm]
  congr 1
  rw [h1, h2, h3, h4]

/-- C7: the factor match score (indeed the whole output dictionary) is
invariant under any consistent per-component positive rescaling of the
estimate and of the truth: multiplying W-columns by positive `c j` and the
matching H-rows by `1 / c j`. -/
theorem score_scale_invariant {n m r r' : ℕ} [NeZero r'] (X : Mat n m) (rk : ℕ)
    (W : Mat n r) (H : Mat r m) (W_true : Mat n r') (H_true : Mat r' m)
    (c : Fin r → ℝ) (d : Fin r' → ℝ) (hc : ∀ j, 0 < c j) (hd : ∀ j, 0 < d j) :
    (compute ⟨X, rk, some (scaleColsBy d W_true, scaleRowsByInv d H_true)⟩
        (scaleColsBy c W) (scaleRowsByInv c H)).1 =
      (compute ⟨X, rk, some (W_true, H_true)⟩ W H).1 := by
  have h1 : normalizeCols (scaleColsBy c W) = normalizeCols W :=
    normalizeCols_scaleColsBy c hc W
  have h2 : normalizeCols (scaleRowsByInv c H)ᵀ = normalizeCols Hᵀ := by
    rw [transpose_scaleRowsByInv]
    exact normalizeCols_scaleColsBy _ (fun j => inv_pos.mpr (hc j)) Hᵀ
  have h3 : normalizeCols (scaleColsBy d W_true) = normalizeCols W_true :=
    normalizeCols_scaleColsBy d hd W_true
  have h4 : normalizeCols (scaleRowsByInv d H_true)ᵀ = normalizeCols H_trueᵀ := by
    rw [transpose_scaleRowsByInv]
    exact normalizeCols_scaleColsBy _ (fun j => inv_pos.mpr (hd j)) H_trueᵀ
  have hWH := mul_scale_cancel c hc W H
  have hf := fmsValue_congr h1 h2 h3 h4
  simp only [compute, hWH, hf]
  rcases hfv : fmsValue W H W_true H_true with _ | v <;> simp only [hfv]

/-- C7 witness: the theorem applied at a concrete 1×1 call with scale 2. -/
theorem score_scale_invariant_witness :
    (∀ j : Fin 1, (0 : ℝ) < (fun _ : Fin 1 => (2 : ℝ)) j) ∧
    (compute (⟨!![(1 : ℝ)], 1,
          some (scaleColsBy (fun _ => (2 : ℝ)) !![(1 : ℝ)],
                scaleRowsByInv (fun _ => (2 : ℝ)) !![(1 : ℝ)])⟩ : ObjectiveState 1 1 1)
        (scaleColsBy (fun _ => (2 : ℝ)) !![(1 : ℝ)])
        (scaleRowsByInv (fun _ => (2 : ℝ)) !![(1 : ℝ)])).1 =
      (compute (⟨!![(1 : ℝ)], 1, some (!![(1 : ℝ)], !![(1 : ℝ)])⟩ : ObjectiveState 1 1 1)
        !![(1 : ℝ)] !![(1 : ℝ)]).1 :=
  ⟨fun _ => by norm_num,
    score_scale_invariant !![(1 : ℝ)] 1 !![(1 : ℝ)] !![(1 : ℝ)] !![(1 : ℝ)] !![(1 : ℝ)]
      (fun _ => 2) (fun _ => 2) (fun _ => by norm_num) (fun _ => by norm_num)⟩

/-- C6: the returned factor match score is the product over the `r` aligned
components of `(w_{π i} · w_true_i) * (h_{π i} · h_true_i)` — the product
of the diagonal entries of the permuted similarity, with `π` the alignment
map `codePerms` computed by the evaluator — not their sum or mean. -/
theorem score_is_product_of_aligned {n m r : ℕ} [NeZero r] (X : Mat n m)
    (rk : ℕ) (W : Mat n r) (H : Mat r m) (W_true : Mat n r) (H_true : Mat r m) :
    ((compute ⟨X, rk, some (W_true, H_true)⟩ W H).1.bind
        ComputeOutput.factor_match_score) =
      some (∏ i : Fin r,
        (∑ a, normalizeCols W a (codePerms W H W_true H_true i) *
            normalizeCols W_true a i) *
        (∑ b, normalizeCols Hᵀ b (codePerms W H W_true H_true i) *
            normalizeCols H_trueᵀ b i)) := by
  rw [compute_fst_of_true_factors _ _ _ _ _ rfl, Option.some_bind]
  refine congrArg some (Finset.prod_congr rfl fun i _ => ?_)
  simp only [codeSim, Matrix.mul_apply, Matrix.transpose_apply]

/-- C6 witness: the theorem applied at a concrete 1×1 call. -/
theorem score_is_product_of_aligned_witness :
    ((compute (⟨!![(1 : ℝ)], 1, some (!![(1 : ℝ)], !![(1 : ℝ)])⟩ :
          ObjectiveState 1 1 1) !![(1 : ℝ)] !![(1 : ℝ)]).1.bind
        ComputeOutput.factor_match_score) =
      some (∏ i : Fin 1,
        (∑ a, normalizeCols !![(1 : ℝ)] a
            (codePerms !![(1 : ℝ)] !![(1 : ℝ)] !![(1 : ℝ)] !![(1 : ℝ)] i) *
            normalizeCols !![(1 : ℝ)] a i) *
        (∑ b, normalizeCols (!![(1 : ℝ)] : Mat 1 1)ᵀ b
            (codePerms !![(1 : ℝ)] !![(1 : ℝ)] !![(1 : ℝ)] !![(1 : ℝ)] i) *
            normalizeCols (!![(1 : ℝ)] : Mat 1 1)ᵀ b i)) :=
  score_is_product_of_aligned !![(1 : ℝ)] 1 !![(1 : ℝ)] !![(1 : ℝ)] !![(1 : ℝ)]
    !![(1 : ℝ)]

/-- The squared entries of a normalized column sum to 1 when the column
norm is nonzero. -/
lemma sum_sq_normalized {a b : ℕ} (M : Mat a b) (j : Fin b)
    (h : colNorm M j ≠ 0) : ∑ i, normalizeCols M i j ^ 2 = 1 := by
  simp only [normalizeCols, div_pow, ← Finset.sum_div]
  have hc : colNorm M j ^ 2 = ∑ i, (M i j) ^ 2 := by
    rw [colNorm, Real.sq_sqrt (by positivity)]
  rw [hc]
  refine div_self fun h0 => h ?_
  rw [colNorm, h0, Real.sqrt_zero]

/-- The squared entries of a normalized column never sum to more than 1
(a zero-norm column normalizes, under the `x / 0 = 0` convention, to the
zero column). -/
lemma sum_sq_normalized_le_one {a b : ℕ} (M : Mat a b) (j : Fin b) :
    ∑ i, normalizeCols M i j ^ 2 ≤ 1 := by
  by_cases h : colNorm M j = 0
  · simp [normalizeCols, h]
  · exact le_of_eq (sum_sq_normalized M j h)

/-- Cauchy–Schwarz for normalized columns: the inner product of two
normalized columns lies in `[-1, 1]`. -/
lemma abs_normalized_dot_le_one {a b b' : ℕ} (M : Mat a b) (N : Mat a b')
    (j : Fin b) (t : Fin b') :
    |∑ i, normalizeCols M i j * normalizeCols N i t| ≤ 1 := by
  rw [← sq_le_one_iff_abs_le_one]
  refine le_trans (Finset.sum_mul_sq_le_sq_mul_sq Finset.univ
    (fun i => normalizeCols M i j) (fun i => normalizeCols N i t)) ?_
  exact mul_le_one₀ (sum_sq_normalized_le_one M j)
    (Finset.sum_nonneg fun i _ => sq_nonneg _) (sum_sq_normalized_le_one N t)

/-- Every entry of the similarity matrix is at most 1. -/
lemma codeSim_le_one {n m r r' : ℕ} (W : Mat n r) (H : Mat r m)
    (W_true : Mat n r') (H_true : Mat r' m) (e : Fin r) (t : Fin r') :
    codeSim W H W_true H_true e t ≤ 1 := by
  simp only [codeSim, Matrix.mul_apply, Matrix.transpose_apply]
  set p := ∑ i, normalizeCols W i e * normalizeCols W_true i t with hp
  set q := ∑ i, normalizeCols Hᵀ i e * normalizeCols H_trueᵀ i t with hq
  calc p * q ≤ |p * q| := le_abs_self _
    _ = |p| * |q| := abs_mul p q
    _ ≤ 1 * 1 := by
        exact mul_le_mul (abs_normalized_dot_le_one W W_true e t)
          (abs_normalized_dot_le_one Hᵀ H_trueᵀ e t) (abs_nonneg q) zero_le_one
    _ = 1 := mul_one 1

/-- Comparing a non-degenerate factorization with itself, the diagonal of
the similarity matrix is identically 1. -/
lemma codeSim_diag_self {n m r : ℕ} (W : Mat n r) (H : Mat r m)
    (hW : ∀ j, colNorm W j ≠ 0) (hH : ∀ j, colNorm Hᵀ j ≠ 0) (i : Fin r) :
    codeSim W H W H i i = 1 := by
  simp only [codeSim, Matrix.mul_apply, Matrix.transpose_apply]
  have h1 : ∑ a, normalizeCols W a i * normalizeCols W a i = 1 := by
    rw [← sum_sq_normalized W i (hW i)]
    exact Finset.sum_congr rfl fun a _ => (sq (normalizeCols W a i)).symm
  have h2 : ∑ b, normalizeCols Hᵀ b i * normalizeCols Hᵀ b i = 1 := by
    rw [← sum_sq_normalized Hᵀ i (hH i)]
    exact Finset.sum_congr rfl fun b _ => (sq (normalizeCols Hᵀ b i)).symm
  rw [h1, h2, mul_one]

/-- Comparing a factorization with itself, the similarity matrix is
symmetric. -/
lemma codeSim_symm_self {n m r : ℕ} (W : Mat n r) (H : Mat r m) (e t : Fin r) :
    codeSim W H W H e t = codeSim W H W H t e := by
  simp only [codeSim, Matrix.mul_apply, Matrix.transpose_apply]
  rw [Finset.sum_congr rfl fun a _ => mul_comm (normalizeCols W a e) _,
    Finset.sum_congr rfl fun b _ => mul_comm (normalizeCols Hᵀ b e) _]

/-- C4: evaluating a well-formed factor pair with no zero-norm W-column or
H-row against itself returns the factor match score 1 exactly. -/
theorem self_match_score_one {n m r : ℕ} [NeZero r] (X : Mat n m) (rk : ℕ)
    (W : Mat n r) (H : Mat r m)
    (hW : ∀ j, colNorm W j ≠ 0) (hH : ∀ j, colNorm Hᵀ j ≠ 0) :
    ((compute ⟨X, rk, some (W, H)⟩ W H).1.bind
        ComputeOutput.factor_match_score) = some 1 := by
  rw [compute_fst_of_true_factors _ _ _ _ _ rfl, Option.some_bind]
  refine congrArg some (Finset.prod_eq_one fun i _ => ?_)
  have hd : codeSim W H W H i i = 1 := codeSim_diag_self W H hW hH i
  have hmax : codeSim W H W H i i ≤ codeSim W H W H i (codePerms W H W H i) :=
    npArgmax_is_max (codeSim W H W H i) i
  have h1 : codeSim W H W H i (codePerms W H W H i) = 1 :=
    le_antisymm (codeSim_le_one W H W H i _) (hd ▸ hmax)
  rw [codeSim_symm_self]
  exact h1

/-- C4 witness: the theorem applied at a concrete non-degenerate 1×1
pair. -/
theorem self_match_score_one_witness :
    (∀ j : Fin 1, colNorm (!![(1 : ℝ)] : Mat 1 1) j ≠ 0) ∧
    (∀ j : Fin 1, colNorm ((!![(1 : ℝ)] : Mat 1 1))ᵀ j ≠ 0) ∧
    ((compute (⟨!![(1 : ℝ)], 1, some (!![(1 : ℝ)], !![(1 : ℝ)])⟩ :
          ObjectiveState 1 1 1) !![(1 : ℝ)] !![(1 : ℝ)]).1.bind
        ComputeOutput.factor_match_score) = some 1 := by
  have h1 : ∀ j : Fin 1, colNorm (!![(1 : ℝ)] : Mat 1 1) j ≠ 0 := by
    intro j; fin_cases j
    norm_num [colNorm, Fin.sum_univ_one]
  have h2 : ∀ j : Fin 1, colNorm ((!![(1 : ℝ)] : Mat 1 1))ᵀ j ≠ 0 := by
    intro j; fin_cases j
    norm_num [colNorm, Fin.sum_univ_one]
  exact ⟨h1, h2, self_match_score_one !![(1 : ℝ)] 1 !![(1 : ℝ)] !![(1 : ℝ)] h1 h2⟩

/-- Normalization is the identity on a matrix whose columns already have
unit norm. -/
lemma normalizeCols_of_unit {a b : ℕ} (M : Mat a b) (h : ∀ j, colNorm M j = 1) :
    normalizeCols M = M := by
  funext i j
  rw [normalizeCols, h, div_one]

/-- The rectangular diagonal product when the row count is the smaller
dimension. -/
lemma diagProd_eq_of_le {r r' : ℕ} (h : r ≤ r') (A B : Mat r r') :
    diagProd A B = ∏ i : Fin r,
      A i ⟨i, lt_of_lt_of_le i.2 h⟩ * B i ⟨i, lt_of_lt_of_le i.2 h⟩ := by
  rw [diagProd]
  exact Fintype.prod_equiv (finCongr (Nat.min_eq_left h)) _ _ fun i => rfl

/-- All four factors of the swap scenario have columns (rows for H) of norm
`√2`. -/
lemma colNorm_W_true_swap : ∀ j, colNorm W_true_swap j = Real.sqrt 2 := by
  intro j; fin_cases j <;>
    norm_num [colNorm, W_true_swap, Fin.sum_univ_three,
      Matrix.vecHead, Matrix.vecTail, Function.comp]

lemma colNorm_H_true_swapT : ∀ j, colNorm H_true_swapᵀ j = Real.sqrt 2 := by
  intro j; fin_cases j <;>
    norm_num [colNorm, H_true_swap, Matrix.transpose_apply, Fin.sum_univ_three,
      Matrix.vecHead, Matrix.vecTail, Function.comp]

lemma colNorm_W_swap : ∀ j, colNorm W_swap j = Real.sqrt 2 := by
  intro j; fin_cases j <;>
    norm_num [colNorm, W_swap, Fin.sum_univ_three,
      Matrix.vecHead, Matrix.vecTail, Function.comp]

lemma colNorm_H_swapT : ∀ j, colNorm H_swapᵀ j = Real.sqrt 2 := by
  intro j; fin_cases j <;>
    norm_num [colNorm, H_swap, Matrix.transpose_apply, Fin.sum_univ_three,
      Matrix.vecHead, Matrix.vecTail, Function.comp]

/-- The similarity matrix of the swap scenario. -/
lemma codeSim_swap :
    codeSim W_swap H_swap W_true_swap H_true_swap = !![1 / 4, 1; 1, 1 / 4] := by
  funext e t
  simp only [codeSim]
  rw [normalized_gram_apply, normalized_gram_apply,
    colNorm_W_swap e, colNorm_W_true_swap t, colNorm_H_swapT e,
    colNorm_H_true_swapT t, Real.mul_self_sqrt (by norm_num : (0 : ℝ) ≤ 2)]
  fin_cases e <;> fin_cases t <;>
    norm_num [W_swap, W_true_swap, H_swap, H_true_swap, Fin.sum_univ_three,
      Matrix.transpose_apply, Matrix.vecHead, Matrix.vecTail, Function.comp]

/-- The permutation the evaluator computes on the swap scenario. -/
lemma codePerms_swap :
    codePerms W_swap H_swap W_true_swap H_true_swap = ![1, 0] := by
  funext e
  simp only [codePerms, codeSim_swap]
  rw [npArgmax_two]
  fin_cases e <;> norm_num

/-- C5: on the spec's concrete swap scenario the evaluator recovers the
swap permutation and returns factor match score 1. -/
theorem swap_scenario_recovers (X : Mat 3 3) (rk : ℕ) :
    codePerms W_swap H_swap W_true_swap H_true_swap = ![1, 0] ∧
    ((compute ⟨X, rk, some (W_true_swap, H_true_swap)⟩ W_swap H_swap).1.bind
        ComputeOutput.factor_match_score) = some 1 := by
  refine ⟨codePerms_swap, ?_⟩
  rw [compute_fst_of_true_factors _ _ _ _ _ rfl, Option.some_bind]
  simp only [codePerms_swap, codeSim_swap, Fin.prod_univ_two]
  norm_num

lemma colNorm_W_est_cex : ∀ j, colNorm W_est_cex j = 1 := by
  intro j; fin_cases j <;>
    norm_num [colNorm, W_est_cex, Fin.sum_univ_two,
      Matrix.vecHead, Matrix.vecTail, Function.comp]

lemma colNorm_H_est_cexT : ∀ j, colNorm H_est_cexᵀ j = 1 := by
  intro j; fin_cases j <;>
    norm_num [colNorm, H_est_cex, Matrix.transpose_apply, Fin.sum_univ_one,
      Matrix.vecHead, Matrix.vecTail, Function.comp]

lemma colNorm_W_true_cex : ∀ j, colNorm W_true_cex j = 1 := by
  intro j; fin_cases j <;>
    norm_num [colNorm, W_true_cex, Fin.sum_univ_two,
      Matrix.vecHead, Matrix.vecTail, Function.comp]

lemma colNorm_H_true_cexT : ∀ j, colNorm H_true_cexᵀ j = 1 := by
  intro j; fin_cases j <;>
    norm_num [colNorm, H_true_cex, Matrix.transpose_apply, Fin.sum_univ_one,
      Matrix.vecHead, Matrix.vecTail, Function.comp]

/-- The code-oriented similarity of the separating example: row `e` ranges
over estimate components. -/
lemma codeSim_cex :
    codeSim W_est_cex H_est_cex W_true_cex H_true_cex =
      !![3 / 5, 4 / 5; 5 / 13, 12 / 13] := by
  funext e t
  simp only [codeSim, normalizeCols_of_unit _ colNorm_W_est_cex,
    normalizeCols_of_unit _ colNorm_H_est_cexT,
    normalizeCols_of_unit _ colNorm_W_true_cex,
    normalizeCols_of_unit _ colNorm_H_true_cexT]
  fin_cases e <;> fin_cases t <;>
    norm_num [Matrix.mul_apply, Matrix.transpose_apply, W_est_cex, H_est_cex,
      W_true_cex, H_true_cex, Fin.sum_univ_two, Fin.sum_univ_one,
      Matrix.vecHead, Matrix.vecTail, Function.comp]

/-- The permutation the code computes on the separating example: both
estimate rows pick truth index 1. -/
lemma codePerms_cex :
    codePerms W_est_cex H_est_cex W_true_cex H_true_cex = ![1, 1] := by
  funext e
  simp only [codePerms, codeSim_cex]
  rw [npArgmax_two]
  fin_cases e <;> norm_num

/-- The spec-oriented similarity of the separating example: row `i` ranges
over truth components (the transpose of `codeSim_cex`). -/
lemma specSim_cex :
    specSim W_est_cex H_est_cex W_true_cex H_true_cex =
      !![3 / 5, 5 / 13; 4 / 5, 12 / 13] := by
  funext i j
  simp only [specSim, normalizeCols_of_unit _ colNorm_W_est_cex,
    normalizeCols_of_unit _ colNorm_H_est_cexT,
    normalizeCols_of_unit _ colNorm_W_true_cex,
    normalizeCols_of_unit _ colNorm_H_true_cexT]
  fin_cases i <;> fin_cases j <;>
    norm_num [Matrix.transpose_apply, W_est_cex, H_est_cex, W_true_cex,
      H_true_cex, Fin.sum_univ_two, Fin.sum_univ_one,
      Matrix.vecHead, Matrix.vecTail, Function.comp]

/-- The spec's truth-row greedy policy on the separating example is the
identity permutation. -/
lemma specPerm_cex :
    specPerm W_est_cex H_est_cex W_true_cex H_true_cex = ![0, 1] := by
  funext i
  simp only [specPerm, specSim_cex]
  fin_cases i
  · refine specLeastArgmax_eq _ 0 (fun j => ?_) (fun y _ => Fin.zero_le y)
    fin_cases j <;> norm_num
  · refine specLeastArgmax_eq _ 1 (fun j => ?_) (fun y hy => ?_)
    · fin_cases j <;> norm_num
    · fin_cases y
      · exact absurd (hy 1) (by norm_num)
      · exact le_refl _

/-- The score prescribed by the claim's truth-row policy on the separating
example. -/
lemma specAlignedScore_cex :
    specAlignedScore W_est_cex H_est_cex W_true_cex H_true_cex = 36 / 65 := by
  rw [specAlignedScore]
  simp only [specPerm_cex, specSim_cex, Fin.prod_univ_two]
  norm_num

/-- C1 counterexample: on the separating example the evaluator returns
`60/169` (its greedy argmax runs along estimate rows and reuses truth
index 1 twice), while the claim's truth-row policy `π(i) = argmax_j S[i,j]`
would give the aligned score `36/65`. -/
theorem greedy_policy_cex :
    ((compute (⟨0, 2, some (W_true_cex, H_true_cex)⟩ : ObjectiveState 2 1 2)
        W_est_cex H_est_cex).1.bind ComputeOutput.factor_match_score) =
      some (60 / 169) ∧
    specAlignedScore W_est_cex H_est_cex W_true_cex H_true_cex = 36 / 65 ∧
    ((60 : ℝ) / 169) ≠ 36 / 65 := by
  refine ⟨?_, specAlignedScore_cex, by norm_num⟩
  rw [compute_fst_of_true_factors _ _ _ _ _ rfl, Option.some_bind]
  simp only [codePerms_cex, codeSim_cex, Fin.prod_univ_two]
  norm_num

/-- C1 as amended: the greedy pass of `compute` runs over **estimate** rows
of the code's similarity matrix `S_code[e, t] = (w_e·w_true_t)*(h_e·h_true_t)`
(first maximum, so ties break to the lowest truth index, duplicates kept),
and the reindexing `W[:, perms]` makes the component scored against truth
slot `i` the estimate component `perms i`, so the returned score is
`∏ i, S_code[perms i, i]`. -/
theorem greedy_policy_estimate_rows {n m r : ℕ} [NeZero r] (X : Mat n m)
    (rk : ℕ) (W : Mat n r) (H : Mat r m) (W_true : Mat n r) (H_true : Mat r m) :
    (∀ e : Fin r,
      (∀ t, codeSim W H W_true H_true e t ≤
          codeSim W H W_true H_true e (codePerms W H W_true H_true e)) ∧
      (∀ t, t < codePerms W H W_true H_true e →
          codeSim W H W_true H_true e t <
          codeSim W H W_true H_true e (codePerms W H W_true H_true e))) ∧
    ((compute ⟨X, rk, some (W_true, H_true)⟩ W H).1.bind
        ComputeOutput.factor_match_score) =
      some (∏ i : Fin r,
        codeSim W H W_true H_true (codePerms W H W_true H_true i) i) := by
  constructor
  · intro e
    exact ⟨fun t => npArgmax_is_max (codeSim W H W_true H_true e) t,
      fun t ht => npArgmax_is_first (codeSim W H W_true H_true e) t ht⟩
  · rw [compute_fst_of_true_factors _ _ _ _ _ rfl, Option.some_bind]

/-- C1 amended-claim witness: the theorem applied at the separating
example. -/
theorem greedy_policy_estimate_rows_witness :
    (∀ e : Fin 2,
      (∀ t, codeSim W_est_cex H_est_cex W_true_cex H_true_cex e t ≤
          codeSim W_est_cex H_est_cex W_true_cex H_true_cex e
            (codePerms W_est_cex H_est_cex W_true_cex H_true_cex e)) ∧
      (∀ t, t < codePerms W_est_cex H_est_cex W_true_cex H_true_cex e →
          codeSim W_est_cex H_est_cex W_true_cex H_true_cex e t <
          codeSim W_est_cex H_est_cex W_true_cex H_true_cex e
            (codePerms W_est_cex H_est_cex W_true_cex H_true_cex e))) ∧
    ((compute (⟨0, 2, some (W_true_cex, H_true_cex)⟩ : ObjectiveState 2 1 2)
        W_est_cex H_est_cex).1.bind ComputeOutput.factor_match_score) =
      some (∏ i : Fin 2,
        codeSim W_est_cex H_est_cex W_true_cex H_true_cex
          (codePerms W_est_cex H_est_cex W_true_cex H_true_cex i) i) :=
  greedy_policy_estimate_rows 0 2 W_est_cex H_est_cex W_true_cex H_true_cex

lemma colNorm_W_est_rank2 : ∀ j, colNorm W_est_rank2 j = 1 := by
  intro j; fin_cases j <;>
    norm_num [colNorm, W_est_rank2, Fin.sum_univ_three,
      Matrix.vecHead, Matrix.vecTail, Function.comp]

lemma colNorm_H_est_rank2T : ∀ j, colNorm H_est_rank2ᵀ j = 1 := by
  intro j; fin_cases j <;>
    norm_num [colNorm, H_est_rank2, Matrix.transpose_apply, Fin.sum_univ_three,
      Matrix.vecHead, Matrix.vecTail, Function.comp]

lemma colNorm_W_true_rank3 : ∀ j, colNorm W_true_rank3 j = 1 := by
  intro j; fin_cases j <;>
    norm_num [colNorm, W_true_rank3, Fin.sum_univ_three,
      Matrix.vecHead, Matrix.vecTail, Function.comp]

lemma colNorm_H_true_rank3T : ∀ j, colNorm H_true_rank3ᵀ j = 1 := by
  intro j; fin_cases j <;>
    norm_num [colNorm, H_true_rank3, Matrix.transpose_apply, Fin.sum_univ_three,
      Matrix.vecHead, Matrix.vecTail, Function.comp]

/-- The 2×3 similarity matrix of the rank-mismatched call. -/
lemma codeSim_rank23 :
    codeSim W_est_rank2 H_est_rank2 W_true_rank3 H_true_rank3 =
      !![1, 0, 0; 0, 1, 0] := by
  funext e t
  simp only [codeSim, normalizeCols_of_unit _ colNorm_W_est_rank2,
    normalizeCols_of_unit _ colNorm_H_est_rank2T,
    normalizeCols_of_unit _ colNorm_W_true_rank3,
    normalizeCols_of_unit _ colNorm_H_true_rank3T]
  fin_cases e <;> fin_cases t <;>
    norm_num [Matrix.mul_apply, Matrix.transpose_apply, W_est_rank2,
      H_est_rank2, W_true_rank3, H_true_rank3, Fin.sum_univ_three,
      Matrix.vecHead, Matrix.vecTail, Function.comp]

/-- The greedy indices of the rank-mismatched call stay below the estimate
rank, so the fancy indexing succeeds. -/
lemma codePerms_rank23 :
    codePerms W_est_rank2 H_est_rank2 W_true_rank3 H_true_rank3 = ![0, 1] := by
  funext e
  simp only [codePerms, codeSim_rank23]
  rw [npArgmax_three]
  fin_cases e <;> norm_num

/-- The factor-match-score block of the rank-2-versus-rank-3 call runs to
completion and returns 1. -/
lemma fmsValue_rank23 :
    fmsValue W_est_rank2 H_est_rank2 W_true_rank3 H_true_rank3 = some 1 := by
  have hg : ∀ e : Fin 2,
      ((codePerms W_est_rank2 H_est_rank2 W_true_rank3 H_true_rank3 e :
        Fin 3) : ℕ) < 2 := by
    intro e
    rw [codePerms_rank23]
    fin_cases e <;> norm_num
  rw [fmsValue, dif_pos hg, diagProd_eq_of_le (by norm_num : (2 : ℕ) ≤ 3),
    Fin.prod_univ_two]
  simp only [reindexCols, Matrix.mul_apply, Matrix.transpose_apply,
    normalizeCols_of_unit _ colNorm_W_est_rank2,
    normalizeCols_of_unit _ colNorm_H_est_rank2T,
    normalizeCols_of_unit _ colNorm_W_true_rank3,
    normalizeCols_of_unit _ colNorm_H_true_rank3T, codePerms_rank23]
  norm_num [W_est_rank2, H_est_rank2, W_true_rank3, H_true_rank3,
    Fin.sum_univ_three, Matrix.vecHead, Matrix.vecTail, Function.comp]

/-- C2 counterexample: a call whose estimate has rank 2 and whose ground
truth has rank 3 does not fail at all — it returns the factor match score
1 computed over the `min (2, 3) = 2` diagonal entries. -/
theorem shape_mismatch_cex :
    ((compute (⟨0, 2, some (W_true_rank3, H_true_rank3)⟩ : ObjectiveState 3 3 3)
        W_est_rank2 H_est_rank2).1.bind ComputeOutput.factor_match_score) =
      some 1 := by
  simp only [compute, fmsValue_rank23]
  rfl

/-- C2 as amended: `compute` performs no shape validation and raises no
typed ShapeMismatch.  A rank-mismatched call (estimate rank `r`, truth rank
`r'` with `r ≠ r'`) returns a factor match score whenever every greedy index
stays below the estimate rank `r`; it can only abort with numpy's untyped
IndexError at `W[:, perms]` when some greedy index reaches `r` (and outer
dimensions are forced to agree before the matrix products exist at all). -/
theorem rank_mismatch_no_shape_error {n m r r' : ℕ} [NeZero r'] (X : Mat n m)
    (rk : ℕ) (W : Mat n r) (H : Mat r m) (W_true : Mat n r')
    (H_true : Mat r' m) (hne : r ≠ r')
    (hg : ∀ e : Fin r, ((codePerms W H W_true H_true e : Fin r') : ℕ) < r) :
    ∃ v : ℝ, ((compute ⟨X, rk, some (W_true, H_true)⟩ W H).1.bind
        ComputeOutput.factor_match_score) = some v := by
  rcases hfv : fmsValue W H W_true H_true with _ | v
  · rw [fmsValue, dif_pos hg] at hfv
    exact absurd hfv (by simp)
  · refine ⟨v, ?_⟩
    simp only [compute, hfv]
    rfl

/-- C2 amended-claim witness: the theorem applied at the rank-2-versus-
rank-3 call. -/
theorem rank_mismatch_no_shape_error_witness :
    (2 : ℕ) ≠ 3 ∧
    (∀ e : Fin 2,
      ((codePerms W_est_rank2 H_est_rank2 W_true_rank3 H_true_rank3 e :
        Fin 3) : ℕ) < 2) ∧
    ∃ v : ℝ, ((compute (⟨0, 2, some (W_true_rank3, H_true_rank3)⟩ :
        ObjectiveState 3 3 3) W_est_rank2 H_est_rank2).1.bind
        ComputeOutput.factor_match_score) = some v := by
  have hne : (2 : ℕ) ≠ 3 := by norm_num
  have hg : ∀ e : Fin 2,
      ((codePerms W_est_rank2 H_est_rank2 W_true_rank3 H_true_rank3 e :
        Fin 3) : ℕ) < 2 := by
    intro e
    rw [codePerms_rank23]
    fin_cases e <;> norm_num
  exact ⟨hne, hg, rank_mismatch_no_shape_error 0 2 W_est_rank2 H_est_rank2
    W_true_rank3 H_true_rank3 hne hg⟩

/-- C3 counterexample: with an all-zero estimate W-column the call does not
surface any typed DegenerateComponent failure — it silently returns a score
(the division-by-zero normalization propagates into the result; numpy's
float semantics make that score NaN, modelled here by the `x / 0 = 0`
convention, which yields 0). -/
theorem degenerate_cex :
    ((compute (⟨one11, 1, some (one11, one11)⟩ : ObjectiveState 1 1 1)
        W_deg one11).1.bind ComputeOutput.factor_match_score) = some 0 := by
  rw [compute_fst_of_true_factors _ _ _ _ _ rfl, Option.some_bind]
  refine congrArg some ?_
  rw [Fin.prod_univ_one]
  have hp : codePerms W_deg one11 one11 one11 0 = 0 := Subsingleton.elim _ _
  rw [hp]
  norm_num [codeSim, Matrix.mul_apply, Matrix.transpose_apply, normalizeCols,
    colNorm, W_deg, one11, Fin.sum_univ_one]

/-- C3 as amended: `compute` performs no zero-norm guard and has no typed
DegenerateComponent failure.  Whatever components are degenerate, the
ground-truth branch always attaches a factor-match-score value to the
returned dictionary (in IEEE arithmetic that value is NaN, silently). -/
theorem degenerate_no_typed_failure {n m r : ℕ} [NeZero r] (X : Mat n m)
    (rk : ℕ) (W : Mat n r) (H : Mat r m) (W_true : Mat n r) (H_true : Mat r m)
    (hdeg : ∃ j : Fin r, colNorm W j = 0 ∨ colNorm Hᵀ j = 0 ∨
      colNorm W_true j = 0 ∨ colNorm H_trueᵀ j = 0) :
    ∃ v : ℝ, ((compute ⟨X, rk, some (W_true, H_true)⟩ W H).1.bind
        ComputeOutput.factor_match_score) = some v :=
  ⟨_, by rw [compute_fst_of_true_factors _ _ _ _ _ rfl, Option.some_bind]⟩

/-- C3 amended-claim witness: the theorem applied at the degenerate
zero-column pair. -/
theorem degenerate_no_typed_failure_witness :
    (∃ j : Fin 1, colNorm W_deg j = 0 ∨ colNorm one11ᵀ j = 0 ∨
      colNorm one11 j = 0 ∨ colNorm one11ᵀ j = 0) ∧
    ∃ v : ℝ, ((compute (⟨one11, 1, some (one11, one11)⟩ : ObjectiveState 1 1 1)
        W_deg one11).1.bind ComputeOutput.factor_match_score) = some v := by
  have hdeg : ∃ j : Fin 1, colNorm W_deg j = 0 ∨ colNorm one11ᵀ j = 0 ∨
      colNorm one11 j = 0 ∨ colNorm one11ᵀ j = 0 :=
    ⟨0, Or.inl (by norm_num [colNorm, W_deg, Fin.sum_univ_one])⟩
  exact ⟨hdeg, degenerate_no_typed_failure one11 1 W_deg one11 one11 one11 hdeg⟩

end

end NMFBench
